import Mathlib

/-!
Verification of the preference store, grouping reconciliation, stats retry
loop and analysis aggregation of the github-wrapped application.

The definitions below are shallow embeddings of the TypeScript sources:
`src/utils/preferences.ts`, `src/app/api/github/group/route.ts`,
`src/app/api/github/stats/route.ts` and `src/app/dashboard/page.tsx`.
JavaScript objects become structures, `undefined`/`null` become `Option`,
JavaScript string truthiness (empty string is falsy) is made explicit, and
the browser-storage read/modify/write pairs become pure state-passing
functions.
-/

namespace GithubWrapped

/-! ## Data model (src/types/index.ts) -/

/-- `DevelopmentMode` from src/types/index.ts. -/
inductive DevelopmentMode where
  | ai
  | manual
  | mixed
deriving DecidableEq

/-- `DeploymentUrl` from src/types/index.ts. -/
structure DeploymentUrl where
  url : String
  label : String
  autoDetected : Bool
deriving DecidableEq

/-- `RepoPreference` from src/types/index.ts; optional fields are `Option`. -/
structure RepoPreference where
  aiAssisted : Option Bool
  selected : Option Bool
  customGroup : Option String
  deploymentUrls : List DeploymentUrl
  narrative : Option String
  lastScanned : Option String
  scanCount : Option Nat
deriving DecidableEq

/-- `CustomGroup` from src/types/index.ts. -/
structure CustomGroup where
  name : String
  icon : String
  description : String
  color : Option String
deriving DecidableEq

/-- `RepoPreferences` from src/types/index.ts.  The two record maps are
modelled as functions from names to optional entries. -/
structure RepoPreferences where
  defaultMode : DevelopmentMode
  repos : String → Option RepoPreference
  customGroups : String → Option CustomGroup

/-- `DEFAULT_REPO_PREFERENCE` in src/utils/preferences.ts: it materializes
`aiAssisted: false` and `selected: false` with no optional fields. -/
def defaultRepoPreference : RepoPreference :=
  { aiAssisted := some false
    selected := some false
    customGroup := none
    deploymentUrls := []
    narrative := none
    lastScanned := none
    scanCount := none }

/-! ## toggleAiAssisted (src/utils/preferences.ts lines 105-120) -/

/-- `toggleAiAssisted` from src/utils/preferences.ts.  It loads the stored
record (or the materialized default), resolves
`existing.aiAssisted ?? (prefs.defaultMode === 'ai')`, flips it, and stores
the flipped value as an explicit override.  Returns the new state and the
returned boolean. -/
def toggleAiAssisted (prefs : RepoPreferences) (repoName : String) :
    RepoPreferences × Bool :=
  let existing := (prefs.repos repoName).getD defaultRepoPreference
  let currentValue := existing.aiAssisted.getD (decide (prefs.defaultMode = DevelopmentMode.ai))
  let newValue := !currentValue
  ({ prefs with
      repos := fun n =>
        if n = repoName then some { existing with aiAssisted := some newValue }
        else prefs.repos n },
    newValue)

/-- The effective AI-assisted value in the words of the specification:
`repos[r].aiAssisted` if that field is present, else `defaultMode == 'ai'`.
This is the spec-side definition used to compare against the code. -/
def specEffectiveAiAssisted (prefs : RepoPreferences) (repoName : String) : Bool :=
  ((prefs.repos repoName).bind (fun p => p.aiAssisted)).getD
    (decide (prefs.defaultMode = DevelopmentMode.ai))

/-- A state with `defaultMode = 'ai'` and no per-repository records. -/
def emptyAiPrefs : RepoPreferences :=
  { defaultMode := DevelopmentMode.ai
    repos := fun _ => none
    customGroups := fun _ => none }

/-! ## mergeWithExistingPreferences (src/utils/preferences.ts lines 239-286) -/

/-- The shape of an entry of the `newRepos` argument of
`mergeWithExistingPreferences`: a name and an optional homepage
(`string | null | undefined` collapses to `Option String`). -/
structure NewRepo where
  name : String
  homepage : Option String
deriving DecidableEq

/-- JavaScript truthiness of the `homepage` field: `null`, `undefined` and
the empty string are all falsy in `if (repo.homepage)`. -/
def presentHomepage : Option String → Option String
  | none => none
  | some s => if s = "" then none else some s

/-- The deployment URL seeded from an upstream homepage (`label: 'Website'`,
`autoDetected: true`). -/
def websiteUrl (h : String) : DeploymentUrl :=
  { url := h, label := "Website", autoDetected := true }

/-- `existing.deploymentUrls[autoIndex].url = repo.homepage` where
`autoIndex = findIndex(u => u.autoDetected)`: replace the url of the first
auto-detected entry, leaving everything else in place. -/
def setFirstAutoUrl (h : String) : List DeploymentUrl → List DeploymentUrl
  | [] => []
  | u :: rest =>
      if u.autoDetected then { u with url := h } :: rest
      else u :: setFirstAutoUrl h rest

/-- The existing-record branch of the merge loop (lines 265-280): if some
auto-detected URL already equals the homepage, do nothing; else if any
auto-detected URL exists, update the first one in place; else append a new
auto-detected entry. -/
def updateAutoUrls (l : List DeploymentUrl) (h : String) : List DeploymentUrl :=
  if l.any (fun u => u.autoDetected && u.url == h) then l
  else if l.any (fun u => u.autoDetected) then setFirstAutoUrl h l
  else l ++ [websiteUrl h]

/-- The new-record branch of the merge loop (lines 245-261): seed
`aiAssisted` from the default mode (`'mixed'` seeds an explicit `false`),
`selected: false`, and an auto-detected URL when a homepage is present. -/
def newRepoRecord (mode : DevelopmentMode) (homepage : Option String) : RepoPreference :=
  { aiAssisted :=
      some (match mode with
            | DevelopmentMode.ai => true
            | DevelopmentMode.manual => false
            | DevelopmentMode.mixed => false)
    selected := some false
    customGroup := none
    deploymentUrls :=
      match presentHomepage homepage with
      | some h => [websiteUrl h]
      | none => []
    narrative := none
    lastScanned := none
    scanCount := none }

/-- One iteration of the `for (const repo of newRepos)` loop of
`mergeWithExistingPreferences`. -/
def mergeStep (prefs : RepoPreferences) (repo : NewRepo) : RepoPreferences :=
  match prefs.repos repo.name with
  | none =>
      { prefs with
          repos := fun n =>
            if n = repo.name then some (newRepoRecord prefs.defaultMode repo.homepage)
            else prefs.repos n }
  | some existing =>
      match presentHomepage repo.homepage with
      | none => prefs
      | some h =>
          { prefs with
              repos := fun n =>
                if n = repo.name then
                  some { existing with deploymentUrls := updateAutoUrls existing.deploymentUrls h }
                else prefs.repos n }

/-- `mergeWithExistingPreferences` from src/utils/preferences.ts: fold the
per-repository step over the freshly fetched list (later iterations see the
updates of earlier ones, as in the imperative loop). -/
def mergeWithExistingPreferences (prefs : RepoPreferences) (newRepos : List NewRepo) :
    RepoPreferences :=
  newRepos.foldl mergeStep prefs

end GithubWrapped

namespace GithubWrapped

/-- C1 counterexample: with `defaultMode = 'ai'` and no record for "x", the
spec-side effective prior value is `true` (inherited from the global mode),
so the claim predicts the call returns `false`; the code materializes the
default record with `aiAssisted: false` and returns `true`. -/
theorem toggleAiAssisted_claim_counterexample :
    (toggleAiAssisted emptyAiPrefs "x").2 ≠ !(specEffectiveAiAssisted emptyAiPrefs "x") := by
  decide

/-- C1 (amended): `toggleAiAssisted(r)` returns the negation of the prior
effective value computed by the code — `repos[r].aiAssisted` when present,
else `defaultMode == 'ai'` when a record for `r` exists without the field,
else `false` (the materialized default record) when no record exists — and
afterwards `repos[r].aiAssisted` is present and equals the returned value. -/
theorem toggleAiAssisted_negates_and_stores (prefs : RepoPreferences) (r : String) :
    ((toggleAiAssisted prefs r).1.repos r).map (fun p => p.aiAssisted)
        = some (some (toggleAiAssisted prefs r).2)
      ∧ (toggleAiAssisted prefs r).2
        = !(match prefs.repos r with
            | some p => p.aiAssisted.getD (decide (prefs.defaultMode = DevelopmentMode.ai))
            | none => false) := by
  constructor
  · simp [toggleAiAssisted]
  · cases h : prefs.repos r with
    | none => simp [toggleAiAssisted, h, defaultRepoPreference]
    | some p => simp [toggleAiAssisted, h]

/-! ## C4: seeding of a new repository record -/

/-- A state with `defaultMode = 'mixed'` and no per-repository records. -/
def mixedEmptyPrefs : RepoPreferences :=
  { defaultMode := DevelopmentMode.mixed
    repos := fun _ => none
    customGroups := fun _ => none }

/-- C4: merging a fresh repository with no prior record creates a record
whose `aiAssisted` field is explicitly present and equals `true` under
`defaultMode == 'ai'`, `false` under `'manual'`, and `false` (explicit, not
absent) under `'mixed'`. -/
theorem merge_seeds_new_repo (prefs : RepoPreferences) (n : String)
    (h : prefs.repos n = none) :
    ((mergeWithExistingPreferences prefs [⟨n, none⟩]).repos n).map (fun p => p.aiAssisted)
      = some (some (match prefs.defaultMode with
                    | DevelopmentMode.ai => true
                    | DevelopmentMode.manual => false
                    | DevelopmentMode.mixed => false)) := by
  simp [mergeWithExistingPreferences, mergeStep, h, newRepoRecord, presentHomepage]

/-- C4 witness: under `defaultMode = 'mixed'` and no prior record for "x",
the merged state stores an explicit `aiAssisted = false` for "x". -/
theorem merge_seeds_new_repo_witness :
    mixedEmptyPrefs.repos "x" = none ∧
      ((mergeWithExistingPreferences mixedEmptyPrefs [⟨"x", none⟩]).repos "x").map
          (fun p => p.aiAssisted)
        = some (some false) :=
  ⟨rfl, merge_seeds_new_repo mixedEmptyPrefs "x" rfl⟩

/-! ## C3: the merge never touches user data on existing records -/

theorem filter_not_auto_setFirstAutoUrl (h : String) (l : List DeploymentUrl) :
    (setFirstAutoUrl h l).filter (fun u => !u.autoDetected)
      = l.filter (fun u => !u.autoDetected) := by
  induction l with
  | nil => rfl
  | cons u rest ih =>
      by_cases hu : u.autoDetected
      · simp [setFirstAutoUrl, hu]
      · simp [setFirstAutoUrl, hu, ih]

theorem filter_not_auto_updateAutoUrls (l : List DeploymentUrl) (h : String) :
    (updateAutoUrls l h).filter (fun u => !u.autoDetected)
      = l.filter (fun u => !u.autoDetected) := by
  unfold updateAutoUrls
  by_cases h1 : l.any (fun u => u.autoDetected && u.url == h)
  · simp [h1]
  · by_cases h2 : l.any (fun u => u.autoDetected)
    · simp [h1, h2, filter_not_auto_setFirstAutoUrl]
    · simp [h1, h2, List.filter_append, websiteUrl]

theorem mergeStep_preserves (prefs : RepoPreferences) (repo : NewRepo) (n : String)
    (p : RepoPreference) (h : prefs.repos n = some p) :
    ∃ q, (mergeStep prefs repo).repos n = some q
      ∧ q.narrative = p.narrative ∧ q.customGroup = p.customGroup
      ∧ q.aiAssisted = p.aiAssisted
      ∧ q.deploymentUrls.filter (fun u => !u.autoDetected)
          = p.deploymentUrls.filter (fun u => !u.autoDetected) := by
  by_cases hn : n = repo.name
  · subst hn
    rw [mergeStep, h]
    cases hh : presentHomepage repo.homepage with
    | none => exact ⟨p, h, rfl, rfl, rfl, rfl⟩
    | some url =>
        refine ⟨{ p with deploymentUrls := updateAutoUrls p.deploymentUrls url }, ?_,
          rfl, rfl, rfl, ?_⟩
        · simp
        · exact filter_not_auto_updateAutoUrls p.deploymentUrls url
  · refine ⟨p, ?_, rfl, rfl, rfl, rfl⟩
    rw [mergeStep]
    cases prefs.repos repo.name with
    | none => simpa [hn] using h
    | some existing =>
        cases presentHomepage repo.homepage with
        | none => exact h
        | some url => simpa [hn] using h

/-- C3: for an existing record, merging any fresh list leaves the record's
`narrative`, `customGroup`, explicit `aiAssisted` flag, and user-added
(non-auto-detected) deployment URLs unchanged. -/
theorem merge_preserves_user_fields (prefs : RepoPreferences) (L : List NewRepo)
    (n : String) (p : RepoPreference) (h : prefs.repos n = some p) :
    ∃ q, (mergeWithExistingPreferences prefs L).repos n = some q
      ∧ q.narrative = p.narrative ∧ q.customGroup = p.customGroup
      ∧ q.aiAssisted = p.aiAssisted
      ∧ q.deploymentUrls.filter (fun u => !u.autoDetected)
          = p.deploymentUrls.filter (fun u => !u.autoDetected) := by
  induction L generalizing prefs p with
  | nil => exact ⟨p, h, rfl, rfl, rfl, rfl⟩
  | cons r L ih =>
      obtain ⟨q, hq, h1, h2, h3, h4⟩ := mergeStep_preserves prefs r n p h
      obtain ⟨q', hq', h1', h2', h3', h4'⟩ := ih (mergeStep prefs r) q hq
      exact ⟨q', hq', h1'.trans h1, h2'.trans h2, h3'.trans h3, h4'.trans h4⟩

/-- A record rich in user data, used to witness C3. -/
def userDataRecord : RepoPreference :=
  { aiAssisted := some true
    selected := some true
    customGroup := some "My Group"
    deploymentUrls := [{ url := "https://mine.example", label := "Mine", autoDetected := false }]
    narrative := some "hand-written notes"
    lastScanned := none
    scanCount := none }

/-- A state holding `userDataRecord` under the name "x". -/
def userDataPrefs : RepoPreferences :=
  { defaultMode := DevelopmentMode.mixed
    repos := fun n => if n = "x" then some userDataRecord else none
    customGroups := fun _ => none }

/-- C3 witness: merging a fresh list that contains "x" with a new homepage
leaves the user data of "x" untouched. -/
theorem merge_preserves_user_fields_witness :
    userDataPrefs.repos "x" = some userDataRecord ∧
      ∃ q, (mergeWithExistingPreferences userDataPrefs
              [⟨"x", some "https://new.example"⟩]).repos "x" = some q
        ∧ q.narrative = userDataRecord.narrative
        ∧ q.customGroup = userDataRecord.customGroup
        ∧ q.aiAssisted = userDataRecord.aiAssisted
        ∧ q.deploymentUrls.filter (fun u => !u.autoDetected)
            = userDataRecord.deploymentUrls.filter (fun u => !u.autoDetected) :=
  ⟨rfl, merge_preserves_user_fields userDataPrefs [⟨"x", some "https://new.example"⟩]
    "x" userDataRecord rfl⟩

/-! ## C5: singularity of the auto-detected deployment URL -/

/-- Number of auto-detected entries of a deployment URL list. -/
def countAuto (l : List DeploymentUrl) : Nat :=
  (l.filter (fun u => u.autoDetected)).length

theorem exists_first_auto (l : List DeploymentUrl)
    (h : l.any (fun u => u.autoDetected) = true) :
    ∃ l₁ a l₂, l = l₁ ++ a :: l₂ ∧ (∀ u ∈ l₁, u.autoDetected = false)
      ∧ a.autoDetected = true := by
  induction l with
  | nil => simp at h
  | cons u rest ih =>
      by_cases hu : u.autoDetected
      · exact ⟨[], u, rest, rfl, by simp, hu⟩
      · have hr : rest.any (fun v => v.autoDetected) = true := by
          simpa [hu] using h
        obtain ⟨l₁, a, l₂, hsplit, h₁, ha⟩ := ih hr
        refine ⟨u :: l₁, a, l₂, by rw [hsplit]; rfl, ?_, ha⟩
        intro v hv
        rcases List.mem_cons.mp hv with hv | hv
        · rw [hv]; exact Bool.eq_false_iff.mpr hu
        · exact h₁ v hv

theorem setFirstAutoUrl_append (h : String) (l₁ : List DeploymentUrl)
    (a : DeploymentUrl) (l₂ : List DeploymentUrl)
    (h₁ : ∀ u ∈ l₁, u.autoDetected = false) (ha : a.autoDetected = true) :
    setFirstAutoUrl h (l₁ ++ a :: l₂) = l₁ ++ { a with url := h } :: l₂ := by
  induction l₁ with
  | nil => simp [setFirstAutoUrl, ha]
  | cons u rest ih =>
      have hu : u.autoDetected = false := h₁ u (by simp)
      have hrest := ih (fun v hv => h₁ v (List.mem_cons_of_mem u hv))
      simp [setFirstAutoUrl, hu, hrest]

theorem updateAutoUrls_decomp (l₁ : List DeploymentUrl) (a : DeploymentUrl)
    (l₂ : List DeploymentUrl) (h : String)
    (h₁ : ∀ u ∈ l₁, u.autoDetected = false) (ha : a.autoDetected = true) :
    updateAutoUrls (l₁ ++ a :: l₂) h
      = l₁ ++ { a with
            url := if l₂.any (fun v => v.autoDetected && v.url == h) then a.url else h }
          :: l₂ := by
  have h₁any : l₁.any (fun u => u.autoDetected && u.url == h) = false := by
    simp only [List.any_eq_false]
    intro u hu
    simp [h₁ u hu]
  have h₁auto : l₁.any (fun u => u.autoDetected) = false := by
    simp only [List.any_eq_false]
    intro u hu
    simp [h₁ u hu]
  simp only [updateAutoUrls]
  by_cases h2 : l₂.any (fun v => v.autoDetected && v.url == h) = true
  · have hfull : (l₁ ++ a :: l₂).any (fun u => u.autoDetected && u.url == h) = true := by
      simp [List.any_append, h2]
    rw [if_pos hfull, if_pos h2]
  · rw [if_neg h2]
    have h2f : l₂.any (fun v => v.autoDetected && v.url == h) = false :=
      Bool.eq_false_iff.mpr h2
    by_cases h3 : (a.url == h) = true
    · have hfull : (l₁ ++ a :: l₂).any (fun u => u.autoDetected && u.url == h) = true := by
        simp [List.any_append, ha, h3]
      rw [if_pos hfull]
      have hurl : a.url = h := by simpa using h3
      rw [← hurl]
    · have h3f : (a.url == h) = false := Bool.eq_false_iff.mpr h3
      have hfull : (l₁ ++ a :: l₂).any (fun u => u.autoDetected && u.url == h) = false := by
        simp [List.any_append, List.any_cons, h₁any, h3f, h2f]
      have hauto : (l₁ ++ a :: l₂).any (fun u => u.autoDetected) = true := by
        simp [List.any_append, ha]
      rw [if_neg (by simp [hfull]), if_pos hauto]
      exact setFirstAutoUrl_append h l₁ a l₂ h₁ ha

theorem countAuto_append (l₁ l₂ : List DeploymentUrl) :
    countAuto (l₁ ++ l₂) = countAuto l₁ + countAuto l₂ := by
  simp [countAuto, List.filter_append]

theorem countAuto_eq_zero (l : List DeploymentUrl)
    (h : ∀ u ∈ l, u.autoDetected = false) : countAuto l = 0 := by
  simp only [countAuto, List.length_eq_zero, List.filter_eq_nil_iff]
  intro u hu
  simp [h u hu]

theorem autoFree_of_countAuto_zero (l : List DeploymentUrl)
    (h : countAuto l = 0) : ∀ u ∈ l, u.autoDetected = false := by
  have hnil : l.filter (fun u => u.autoDetected) = [] := List.length_eq_zero.mp h
  intro u hu
  have := List.filter_eq_nil_iff.mp hnil u hu
  simpa using this

/-- On a list holding at most one auto-detected entry, the merge's
URL-update step leaves exactly one auto-detected entry whose url is the
incoming homepage. -/
theorem updateAutoUrls_one_auto (l : List DeploymentUrl) (A : String)
    (hc : countAuto l ≤ 1) :
    countAuto (updateAutoUrls l A) = 1
      ∧ ∀ u ∈ updateAutoUrls l A, u.autoDetected = true → u.url = A := by
  by_cases h : l.any (fun u => u.autoDetected) = true
  · obtain ⟨l₁, a, l₂, hsplit, h₁, ha⟩ := exists_first_auto l h
    subst hsplit
    have hc₁ : countAuto l₁ = 0 := countAuto_eq_zero l₁ h₁
    have hccons : countAuto (a :: l₂) = countAuto l₂ + 1 := by
      simp [countAuto, List.filter_cons, ha]
    have htot := countAuto_append l₁ (a :: l₂)
    have hc₂zero : countAuto l₂ = 0 := by omega
    have hl₂ : ∀ u ∈ l₂, u.autoDetected = false := autoFree_of_countAuto_zero l₂ hc₂zero
    have h2 : l₂.any (fun v => v.autoDetected && v.url == A) = false := by
      simp only [List.any_eq_false]
      intro v hv
      simp [hl₂ v hv]
    rw [updateAutoUrls_decomp l₁ a l₂ A h₁ ha, h2]
    simp only [Bool.false_eq_true, if_false]
    constructor
    · rw [countAuto_append, hc₁]
      simpa [countAuto, List.filter_cons, ha] using hc₂zero
    · intro u hu hauto
      rcases List.mem_append.mp hu with hu₁ | hu₂
      · exact absurd hauto (by simp [h₁ u hu₁])
      · rcases List.mem_cons.mp hu₂ with rfl | hu₃
        · rfl
        · exact absurd hauto (by simp [hl₂ u hu₃])
  · have hf : l.any (fun u => u.autoDetected) = false := Bool.eq_false_iff.mpr h
    have hfree : ∀ v ∈ l, v.autoDetected = false := by
      intro v hv
      exact Bool.eq_false_iff.mpr (List.any_eq_false.mp hf v hv)
    have hcond : l.any (fun u => u.autoDetected && u.url == A) = false := by
      simp only [List.any_eq_false]
      intro v hv
      simp [hfree v hv]
    have hupd : updateAutoUrls l A = l ++ [websiteUrl A] := by
      rw [updateAutoUrls, hcond, hf]
      simp
    rw [hupd]
    constructor
    · rw [countAuto_append, countAuto_eq_zero l hfree]
      simp [countAuto, websiteUrl]
    · intro u hu hauto
      rcases List.mem_append.mp hu with h1 | h2
      · exact absurd hauto (by simp [hfree u h1])
      · simp only [List.mem_singleton] at h2
        subst h2
        rfl

/-- A merge over a one-element fresh list is one step of the loop. -/
theorem merge_singleton (prefs : RepoPreferences) (r : NewRepo) :
    mergeWithExistingPreferences prefs [r] = mergeStep prefs r := rfl

/-- What one merge step stores under the name it processes. -/
theorem mergeStep_repos_self (prefs : RepoPreferences) (nm : String) (hp : Option String) :
    (mergeStep prefs ⟨nm, hp⟩).repos nm
      = some (match prefs.repos nm with
              | none => newRepoRecord prefs.defaultMode hp
              | some p =>
                  match presentHomepage hp with
                  | none => p
                  | some h => { p with deploymentUrls := updateAutoUrls p.deploymentUrls h }) := by
  cases hrec : prefs.repos nm with
  | none => simp [mergeStep, hrec]
  | some p =>
      cases hph : presentHomepage hp with
      | none => simp [mergeStep, hrec, hph]
      | some h => simp [mergeStep, hrec, hph]

/-- C5: starting from at most one auto-detected URL, merging homepage `A`
then homepage `B` leaves exactly one auto-detected entry, its url equals
`B`, and user-added URLs are untouched. -/
theorem merge_twice_auto_url (prefs : RepoPreferences) (n A B : String)
    (hAB : A ≠ B) (hA : A ≠ "") (hB : B ≠ "")
    (hc : ∀ p, prefs.repos n = some p → countAuto p.deploymentUrls ≤ 1) :
    ∃ q,
      ((mergeWithExistingPreferences
          (mergeWithExistingPreferences prefs [⟨n, some A⟩]) [⟨n, some B⟩]).repos n)
        = some q
      ∧ countAuto q.deploymentUrls = 1
      ∧ (∀ u ∈ q.deploymentUrls, u.autoDetected = true → u.url = B)
      ∧ q.deploymentUrls.filter (fun u => !u.autoDetected)
          = (((prefs.repos n).map (fun p => p.deploymentUrls)).getD []).filter
              (fun u => !u.autoDetected) := by
  rw [merge_singleton, merge_singleton]
  have hpA : presentHomepage (some A) = some A := by simp [presentHomepage, hA]
  have hpB : presentHomepage (some B) = some B := by simp [presentHomepage, hB]
  cases hp : prefs.repos n with
  | none =>
      have s1 : (mergeStep prefs ⟨n, some A⟩).repos n
          = some (newRepoRecord prefs.defaultMode (some A)) := by
        rw [mergeStep_repos_self, hp]
      have hurls : (newRepoRecord prefs.defaultMode (some A)).deploymentUrls
          = [websiteUrl A] := by
        simp [newRepoRecord, hpA]
      have s2 : (mergeStep (mergeStep prefs ⟨n, some A⟩) ⟨n, some B⟩).repos n
          = some { newRepoRecord prefs.defaultMode (some A) with
                    deploymentUrls :=
                      updateAutoUrls (newRepoRecord prefs.defaultMode (some A)).deploymentUrls B } := by
        rw [mergeStep_repos_self, s1, hpB]
      have hcnt : countAuto (newRepoRecord prefs.defaultMode (some A)).deploymentUrls ≤ 1 := by
        rw [hurls]
        simp [countAuto, websiteUrl]
      obtain ⟨hc1, hall⟩ :=
        updateAutoUrls_one_auto (newRepoRecord prefs.defaultMode (some A)).deploymentUrls B hcnt
      refine ⟨_, s2, hc1, hall, ?_⟩
      rw [filter_not_auto_updateAutoUrls, hurls]
      simp [websiteUrl, hp]
  | some p =>
      have hcp := hc p hp
      have s1 : (mergeStep prefs ⟨n, some A⟩).repos n
          = some { p with deploymentUrls := updateAutoUrls p.deploymentUrls A } := by
        rw [mergeStep_repos_self, hp, hpA]
      have s2 : (mergeStep (mergeStep prefs ⟨n, some A⟩) ⟨n, some B⟩).repos n
          = some { p with
                    deploymentUrls := updateAutoUrls (updateAutoUrls p.deploymentUrls A) B } := by
        rw [mergeStep_repos_self, s1, hpB]
      obtain ⟨hc1, _⟩ := updateAutoUrls_one_auto p.deploymentUrls A hcp
      obtain ⟨hc2, hall2⟩ := updateAutoUrls_one_auto (updateAutoUrls p.deploymentUrls A) B hc1.le
      refine ⟨_, s2, hc2, hall2, ?_⟩
      rw [filter_not_auto_updateAutoUrls, filter_not_auto_updateAutoUrls]
      simp [hp]

/-- A record with one user-added and one auto-detected deployment URL. -/
def oneAutoRecord : RepoPreference :=
  { aiAssisted := none
    selected := none
    customGroup := none
    deploymentUrls :=
      [{ url := "https://user.example", label := "Mine", autoDetected := false },
       { url := "https://old.example", label := "Website", autoDetected := true }]
    narrative := none
    lastScanned := none
    scanCount := none }

/-- A state holding `oneAutoRecord` under the name "x". -/
def oneAutoPrefs : RepoPreferences :=
  { defaultMode := DevelopmentMode.mixed
    repos := fun n => if n = "x" then some oneAutoRecord else none
    customGroups := fun _ => none }

/-- C5 witness: merging homepage A then homepage B over `oneAutoRecord`
leaves one auto-detected URL equal to B and the user URL untouched. -/
theorem merge_twice_auto_url_witness :
    ∃ q,
      ((mergeWithExistingPreferences
          (mergeWithExistingPreferences oneAutoPrefs [⟨"x", some "https://a.example"⟩])
          [⟨"x", some "https://b.example"⟩]).repos "x") = some q
      ∧ countAuto q.deploymentUrls = 1
      ∧ (∀ u ∈ q.deploymentUrls, u.autoDetected = true → u.url = "https://b.example")
      ∧ q.deploymentUrls.filter (fun u => !u.autoDetected)
          = (((oneAutoPrefs.repos "x").map (fun p => p.deploymentUrls)).getD []).filter
              (fun u => !u.autoDetected) :=
  merge_twice_auto_url oneAutoPrefs "x" "https://a.example" "https://b.example"
    (by decide) (by decide) (by decide)
    (fun p hp => by
      have hrec : oneAutoRecord = p := by simpa [oneAutoPrefs] using hp
      rw [← hrec]
      decide)

/-! ## C10: idempotence of the merge

The merge only ever touches the record stored under the name of the entry
being processed, so its action factors through the per-name sequence of
(truthy) homepages.  The auxiliary functions below capture that factoring
and are proved equal to the merge itself. -/

/-- The sequence of truthy homepages the merge loop applies to name `n`. -/
def occs (n : String) (L : List NewRepo) : List (Option String) :=
  L.filterMap (fun r => if r.name = n then some (presentHomepage r.homepage) else none)

/-- The existing-record action of one loop iteration, on the record level. -/
def updRecord (p : RepoPreference) : Option String → RepoPreference
  | none => p
  | some u => { p with deploymentUrls := updateAutoUrls p.deploymentUrls u }

/-- The merge loop's action on a single name, over that name's homepage
sequence. -/
def applyOccs (mode : DevelopmentMode) :
    Option RepoPreference → List (Option String) → Option RepoPreference
  | v, [] => v
  | none, h :: rest => applyOccs mode (some (newRepoRecord mode h)) rest
  | some p, h :: rest => applyOccs mode (some (updRecord p h)) rest

/-- The action of the homepage sequence on the deployment URL list alone. -/
def foldUrls (d : List DeploymentUrl) (hs : List (Option String)) : List DeploymentUrl :=
  hs.foldl (fun l h => updRecord { defaultRepoPreference with deploymentUrls := l } h
    |>.deploymentUrls) d

/-- The action of the plain (non-optional) homepage urls on a URL list. -/
def foldU (d : List DeploymentUrl) (us : List String) : List DeploymentUrl :=
  us.foldl updateAutoUrls d

theorem foldU_cons (d : List DeploymentUrl) (u : String) (us : List String) :
    foldU d (u :: us) = foldU (updateAutoUrls d u) us := rfl

theorem foldUrls_cons_none (d : List DeploymentUrl) (hs : List (Option String)) :
    foldUrls d (none :: hs) = foldUrls d hs := rfl

theorem foldUrls_cons_some (d : List DeploymentUrl) (u : String) (hs : List (Option String)) :
    foldUrls d (some u :: hs) = foldUrls (updateAutoUrls d u) hs := rfl

theorem foldUrls_eq_foldU (hs : List (Option String)) (d : List DeploymentUrl) :
    foldUrls d hs = foldU d (hs.filterMap id) := by
  induction hs generalizing d with
  | nil => rfl
  | cons h rest ih =>
      cases h with
      | none => rw [foldUrls_cons_none, ih]; rfl
      | some u => rw [foldUrls_cons_some, ih]; rfl

/-- The url kept by a sequence of homepage updates: each update keeps the
current url when some auto-detected entry after the first (`l₂`) already
carries the incoming homepage, else the incoming homepage wins. -/
def lastNonR (l₂ : List DeploymentUrl) (x : String) (us : List String) : String :=
  us.foldl (fun acc u => if l₂.any (fun v => v.autoDetected && v.url == u) then acc else u) x

theorem lastNonR_cons (l₂ : List DeploymentUrl) (x : String) (u : String) (us : List String) :
    lastNonR l₂ x (u :: us)
      = lastNonR l₂ (if l₂.any (fun v => v.autoDetected && v.url == u) then x else u) us := rfl

theorem lastNonR_idem (l₂ : List DeploymentUrl) (us : List String) (x : String) :
    lastNonR l₂ (lastNonR l₂ x us) us = lastNonR l₂ x us := by
  induction us generalizing x with
  | nil => rfl
  | cons u rest ih =>
      by_cases hR : l₂.any (fun v => v.autoDetected && v.url == u) = true
      · simp only [lastNonR_cons, if_pos hR]
        exact ih _
      · simp only [lastNonR_cons, if_neg hR]

theorem foldU_decomp (l₁ l₂ : List DeploymentUrl)
    (h₁ : ∀ u ∈ l₁, u.autoDetected = false) (us : List String) :
    ∀ a : DeploymentUrl, a.autoDetected = true →
      foldU (l₁ ++ a :: l₂) us = l₁ ++ { a with url := lastNonR l₂ a.url us } :: l₂ := by
  induction us with
  | nil => intro a ha; rfl
  | cons u rest ih =>
      intro a ha
      rw [foldU_cons, updateAutoUrls_decomp l₁ a l₂ u h₁ ha]
      exact ih _ ha

theorem updateAutoUrls_autoFree (l : List DeploymentUrl) (u : String)
    (hfree : ∀ v ∈ l, v.autoDetected = false) :
    updateAutoUrls l u = l ++ [websiteUrl u] := by
  have hcond : l.any (fun v => v.autoDetected && v.url == u) = false := by
    simp only [List.any_eq_false]
    intro v hv
    simp [hfree v hv]
  have hauto : l.any (fun v => v.autoDetected) = false := by
    simp only [List.any_eq_false]
    intro v hv
    simp [hfree v hv]
  rw [updateAutoUrls, hcond, hauto]
  simp

theorem foldU_replay (d : List DeploymentUrl) (u : String) (us : List String)
    (hfree : ∀ v ∈ d, v.autoDetected = false) :
    foldU (updateAutoUrls (foldU (d ++ [websiteUrl u]) us) u) us
      = foldU (d ++ [websiteUrl u]) us := by
  have hdec := foldU_decomp d [] hfree us (websiteUrl u) rfl
  rw [hdec]
  have hupd : updateAutoUrls
        (d ++ { websiteUrl u with url := lastNonR [] (websiteUrl u).url us } :: []) u
      = d ++ websiteUrl u :: [] := by
    rw [updateAutoUrls_decomp d _ [] u hfree rfl]
    simp [websiteUrl]
  rw [hupd, hdec]

theorem foldU_idem (d : List DeploymentUrl) (us : List String) :
    foldU (foldU d us) us = foldU d us := by
  by_cases h : d.any (fun v => v.autoDetected) = true
  · obtain ⟨l₁, a, l₂, rfl, h₁, ha⟩ := exists_first_auto d h
    rw [foldU_decomp l₁ l₂ h₁ us a ha,
      foldU_decomp l₁ l₂ h₁ us { a with url := lastNonR l₂ a.url us } ha]
    simp [lastNonR_idem]
  · have hf : d.any (fun v => v.autoDetected) = false := Bool.eq_false_iff.mpr h
    have hfree : ∀ v ∈ d, v.autoDetected = false := by
      intro v hv
      exact Bool.eq_false_iff.mpr (List.any_eq_false.mp hf v hv)
    cases us with
    | nil => rfl
    | cons u rest =>
        rw [foldU_cons, foldU_cons, updateAutoUrls_autoFree d u hfree]
        exact foldU_replay d u rest hfree

theorem foldl_updRecord (hs : List (Option String)) (p : RepoPreference) :
    List.foldl updRecord p hs = { p with deploymentUrls := foldUrls p.deploymentUrls hs } := by
  induction hs generalizing p with
  | nil => rfl
  | cons h rest ih =>
      cases h with
      | none => exact ih p
      | some u => exact ih _

theorem applyOccs_nil (mode : DevelopmentMode) (v : Option RepoPreference) :
    applyOccs mode v [] = v := by
  cases v <;> rfl

theorem applyOccs_some (mode : DevelopmentMode) (p : RepoPreference)
    (hs : List (Option String)) :
    applyOccs mode (some p) hs = some (List.foldl updRecord p hs) := by
  induction hs generalizing p with
  | nil => rfl
  | cons h rest ih => exact ih _

theorem applyOccs_some_idem (mode : DevelopmentMode) (p : RepoPreference)
    (hs : List (Option String)) :
    applyOccs mode (applyOccs mode (some p) hs) hs = applyOccs mode (some p) hs := by
  rw [applyOccs_some, applyOccs_some, foldl_updRecord, foldl_updRecord]
  have hidem := foldU_idem p.deploymentUrls (hs.filterMap id)
  simp only [foldUrls_eq_foldU]
  simp [hidem]

theorem newRepoRecord_urls (mode : DevelopmentMode) (u : String) (hu : u ≠ "") :
    (newRepoRecord mode (some u)).deploymentUrls = [websiteUrl u] := by
  simp [newRepoRecord, presentHomepage, hu]

theorem applyOccs_idem (mode : DevelopmentMode) (v : Option RepoPreference)
    (hs : List (Option String)) (hgood : ∀ s, some s ∈ hs → s ≠ "") :
    applyOccs mode (applyOccs mode v hs) hs = applyOccs mode v hs := by
  cases hs with
  | nil => cases v <;> rfl
  | cons h rest =>
      cases v with
      | some p => exact applyOccs_some_idem mode p (h :: rest)
      | none =>
          have e1 : applyOccs mode none (h :: rest)
              = some { newRepoRecord mode h with
                  deploymentUrls := foldUrls (newRepoRecord mode h).deploymentUrls rest } := by
            show applyOccs mode (some (newRepoRecord mode h)) rest = _
            rw [applyOccs_some, foldl_updRecord]
          rw [e1]
          have e2 : applyOccs mode
              (some { newRepoRecord mode h with
                  deploymentUrls := foldUrls (newRepoRecord mode h).deploymentUrls rest })
              (h :: rest)
              = some (List.foldl updRecord
                  (updRecord { newRepoRecord mode h with
                      deploymentUrls := foldUrls (newRepoRecord mode h).deploymentUrls rest } h)
                  rest) := by
            show applyOccs mode
              (some (updRecord { newRepoRecord mode h with
                  deploymentUrls := foldUrls (newRepoRecord mode h).deploymentUrls rest } h))
              rest = _
            rw [applyOccs_some]
          rw [e2, foldl_updRecord]
          cases h with
          | none =>
              simp only [updRecord, foldUrls_eq_foldU]
              simp [foldU_idem]
          | some u =>
              have hu : u ≠ "" := hgood u (by simp)
              have hrep := foldU_replay [] u (rest.filterMap id) (by simp)
              simp only [List.nil_append] at hrep
              simp only [updRecord, foldUrls_eq_foldU, newRepoRecord_urls mode u hu]
              simp [hrep]

theorem mergeStep_defaultMode (prefs : RepoPreferences) (r : NewRepo) :
    (mergeStep prefs r).defaultMode = prefs.defaultMode := by
  rw [mergeStep]
  cases prefs.repos r.name with
  | none => rfl
  | some p =>
      cases presentHomepage r.homepage with
      | none => rfl
      | some h => rfl

theorem mergeStep_customGroups (prefs : RepoPreferences) (r : NewRepo) :
    (mergeStep prefs r).customGroups = prefs.customGroups := by
  rw [mergeStep]
  cases prefs.repos r.name with
  | none => rfl
  | some p =>
      cases presentHomepage r.homepage with
      | none => rfl
      | some h => rfl

theorem mergeStep_repos_other (prefs : RepoPreferences) (r : NewRepo) (n : String)
    (hn : n ≠ r.name) :
    (mergeStep prefs r).repos n = prefs.repos n := by
  rw [mergeStep]
  cases prefs.repos r.name with
  | none => simp [hn]
  | some p =>
      cases presentHomepage r.homepage with
      | none => rfl
      | some h => simp [hn]

theorem merge_defaultMode (prefs : RepoPreferences) (L : List NewRepo) :
    (mergeWithExistingPreferences prefs L).defaultMode = prefs.defaultMode := by
  induction L generalizing prefs with
  | nil => rfl
  | cons r L ih => exact (ih (mergeStep prefs r)).trans (mergeStep_defaultMode prefs r)

theorem merge_customGroups (prefs : RepoPreferences) (L : List NewRepo) :
    (mergeWithExistingPreferences prefs L).customGroups = prefs.customGroups := by
  induction L generalizing prefs with
  | nil => rfl
  | cons r L ih => exact (ih (mergeStep prefs r)).trans (mergeStep_customGroups prefs r)

theorem presentHomepage_idem (hp : Option String) :
    presentHomepage (presentHomepage hp) = presentHomepage hp := by
  cases hp with
  | none => rfl
  | some s =>
      by_cases hs : s = ""
      · simp [presentHomepage, hs]
      · simp [presentHomepage, hs]

theorem newRepoRecord_presentHomepage (mode : DevelopmentMode) (hp : Option String) :
    newRepoRecord mode (presentHomepage hp) = newRepoRecord mode hp := by
  unfold newRepoRecord
  rw [presentHomepage_idem]

/-- The merge's action on the record of name `n` factors through the
per-name homepage sequence `occs n L`. -/
theorem merge_repos_applyOccs (L : List NewRepo) (prefs : RepoPreferences) (n : String) :
    (mergeWithExistingPreferences prefs L).repos n
      = applyOccs prefs.defaultMode (prefs.repos n) (occs n L) := by
  induction L generalizing prefs with
  | nil => simp [mergeWithExistingPreferences, occs, applyOccs_nil]
  | cons r L ih =>
      obtain ⟨rn, rh⟩ := r
      have hstep : mergeWithExistingPreferences prefs (⟨rn, rh⟩ :: L)
          = mergeWithExistingPreferences (mergeStep prefs ⟨rn, rh⟩) L := rfl
      by_cases hn : rn = n
      · subst hn
        have hocc : occs rn (⟨rn, rh⟩ :: L) = presentHomepage rh :: occs rn L := by
          simp [occs]
        rw [hstep, ih, mergeStep_defaultMode, mergeStep_repos_self, hocc]
        cases hv : prefs.repos rn with
        | none =>
            show applyOccs prefs.defaultMode (some (newRepoRecord prefs.defaultMode rh)) _
              = applyOccs prefs.defaultMode (some (newRepoRecord prefs.defaultMode (presentHomepage rh))) _
            rw [newRepoRecord_presentHomepage]
        | some p =>
            cases hph : presentHomepage rh with
            | none => rfl
            | some u => rfl
      · have hocc : occs n (⟨rn, rh⟩ :: L) = occs n L := by
          simp [occs, hn]
        rw [hstep, ih, mergeStep_defaultMode,
          mergeStep_repos_other prefs ⟨rn, rh⟩ n (fun he => hn he.symm), hocc]

theorem occs_good (n : String) (L : List NewRepo) :
    ∀ s, some s ∈ occs n L → s ≠ "" := by
  intro s hs
  simp only [occs, List.mem_filterMap] at hs
  obtain ⟨r, _, hr⟩ := hs
  by_cases hname : r.name = n
  · rw [if_pos hname] at hr
    have hph : presentHomepage r.homepage = some s := by
      exact Option.some.inj hr
    cases hhp : r.homepage with
    | none => rw [hhp] at hph; simp [presentHomepage] at hph
    | some t =>
        rw [hhp] at hph
        by_cases ht : t = ""
        · simp [presentHomepage, ht] at hph
        · have : t = s := by simpa [presentHomepage, ht] using hph
          rw [← this]
          exact ht
  · rw [if_neg hname] at hr
    exact absurd hr (by simp)

/-- Two preference states with equal fields are equal. -/
theorem repoPreferences_eq (s t : RepoPreferences)
    (h1 : s.defaultMode = t.defaultMode)
    (h2 : ∀ n, s.repos n = t.repos n)
    (h3 : s.customGroups = t.customGroups) : s = t := by
  cases s with
  | mk d r c =>
      cases t with
      | mk d2 r2 c2 =>
          simp only [RepoPreferences.mk.injEq]
          exact ⟨h1, funext h2, h3⟩

/-- C10: `mergeWithExistingPreferences` is idempotent — merging the same
fresh repository list a second time changes nothing, including the
auto-detected deployment URLs. -/
theorem merge_idempotent (prefs : RepoPreferences) (L : List NewRepo) :
    mergeWithExistingPreferences (mergeWithExistingPreferences prefs L) L
      = mergeWithExistingPreferences prefs L := by
  refine repoPreferences_eq _ _ (merge_defaultMode _ L) (fun n => ?_) (merge_customGroups _ L)
  rw [merge_repos_applyOccs L (mergeWithExistingPreferences prefs L) n,
    merge_defaultMode, merge_repos_applyOccs L prefs n]
  exact applyOccs_idem prefs.defaultMode (prefs.repos n) (occs n L) (occs_good n L)

/-! ## Group reconciliation (src/app/api/github/group/route.ts lines 281-303) -/

/-- The shape of a group returned by the grouping collaborator and of the
groups in the endpoint response. -/
structure AIGroup where
  name : String
  icon : String
  description : String
  repos : List String
deriving DecidableEq

/-- The synthetic catch-all group appended for ungrouped repositories. -/
def otherProjectsGroup (repos : List String) : AIGroup :=
  { name := "Other Projects"
    icon := "📁"
    description := "Additional projects and experiments"
    repos := repos }

/-- The reconciliation after the model call: collect every name mentioned
by any returned group, compute the analyzed names not mentioned, and append
one catch-all group when that set is non-empty.  Nothing is removed and no
overlap is resolved. -/
def reconcileGroups (allRepoNames : List String) (groups : List AIGroup) : List AIGroup :=
  let groupedRepoNames := (groups.map (fun g => g.repos)).flatten
  let ungroupedRepos := allRepoNames.filter (fun n => !(groupedRepoNames.contains n))
  if ungroupedRepos.isEmpty then groups
  else groups ++ [otherProjectsGroup ungroupedRepos]

/-- Analyzed names used in the C2 counterexample and witness. -/
def c2AllNames : List String := ["a", "b"]

/-- Collaborator output that mentions the invented name "c" and lists "a"
twice, used in the C2 counterexample and witness. -/
def c2Groups : List AIGroup :=
  [{ name := "G1", icon := "*", description := "", repos := ["a", "c"] },
   { name := "G2", icon := "*", description := "", repos := ["a"] }]

/-- C2 counterexample: for a collaborator output that invents the name "c"
and lists "a" in two groups, the reconciled list still mentions "c" (so the
union of names is not the analyzed set) and still lists "a" in two groups
(so names are not unique across groups). -/
theorem reconcileGroups_claim_counterexample :
    (((reconcileGroups c2AllNames c2Groups).map (fun g => g.repos)).flatten.contains "c" = true
      ∧ c2AllNames.contains "c" = false)
    ∧ ((reconcileGroups c2AllNames c2Groups).filter
          (fun g => g.repos.contains "a")).length = 2 := by
  decide

/-- C2 (amended): reconciliation guarantees that every analyzed name is
mentioned by some group of the result, and appends exactly one synthetic
"Other Projects" group holding exactly the leftover names when some
analyzed names were missing (the result is unchanged otherwise); names
invented by the collaborator are kept and overlaps are not removed. -/
theorem reconcileGroups_covers (allRepoNames : List String) (groups : List AIGroup) :
    (∀ n ∈ allRepoNames, ∃ g ∈ reconcileGroups allRepoNames groups, n ∈ g.repos)
    ∧ (let leftover := allRepoNames.filter
          (fun n => !(((groups.map (fun g => g.repos)).flatten).contains n))
       reconcileGroups allRepoNames groups
         = if leftover.isEmpty then groups else groups ++ [otherProjectsGroup leftover]) := by
  constructor
  · intro n hn
    by_cases hmem : ((groups.map (fun g => g.repos)).flatten).contains n = true
    · have hn2 : n ∈ (groups.map (fun g => g.repos)).flatten := by simpa using hmem
      obtain ⟨l, hl, hnl⟩ := List.mem_flatten.mp hn2
      obtain ⟨g, hg, rfl⟩ := List.mem_map.mp hl
      refine ⟨g, ?_, hnl⟩
      rw [reconcileGroups]
      by_cases he : (allRepoNames.filter
          (fun m => !(((groups.map (fun g => g.repos)).flatten).contains m))).isEmpty
      · rw [if_pos he]; exact hg
      · rw [if_neg he]; exact List.mem_append_left _ hg
    · have hleft : n ∈ allRepoNames.filter
          (fun m => !(((groups.map (fun g => g.repos)).flatten).contains m)) := by
        refine List.mem_filter.mpr ⟨hn, by simpa using hmem⟩
      have hne : (allRepoNames.filter
          (fun m => !(((groups.map (fun g => g.repos)).flatten).contains m))).isEmpty = false := by
        have := List.ne_nil_of_mem hleft
        simpa [List.isEmpty_iff] using this
      refine ⟨otherProjectsGroup _, ?_, hleft⟩
      rw [reconcileGroups]
      rw [if_neg (Bool.eq_false_iff.mp hne)]
      exact List.mem_append_right _ (by simp)
  · rfl

/-- C2 witness: applied at the concrete counterexample input, "b" (omitted
by the collaborator) is covered by some group of the reconciled result. -/
theorem reconcileGroups_covers_witness :
    ∃ g ∈ reconcileGroups c2AllNames c2Groups, "b" ∈ g.repos :=
  (reconcileGroups_covers c2AllNames c2Groups).1 "b" (by decide)

/-! ## Fallback grouping by language (src/app/api/github/group/route.ts lines 328-365) -/

/-- A repository as read from the request body by the fallback handler. -/
structure GroupRepo where
  name : String
  language : Option String
deriving DecidableEq

/-- `repo.language || 'Other'`: null, undefined and the empty string all
fall back to "Other". -/
def langOrOther : Option String → String
  | none => "Other"
  | some s => if s = "" then "Other" else s

/-- `languageGroups[lang].push(repo.name)` on a JavaScript object with
insertion-ordered string keys: append the name to the first bucket with
this key, or create a new bucket at the end. -/
def insertLang : List (String × List String) → String → String → List (String × List String)
  | [], k, n => [(k, [n])]
  | (k1, ns) :: rest, k, n =>
      if k1 = k then (k1, ns ++ [n]) :: rest
      else (k1, ns) :: insertLang rest k n

/-- The `languageGroups` object after the `repositories.forEach` loop. -/
def buildLanguageGroups (repos : List GroupRepo) : List (String × List String) :=
  repos.foldl (fun acc r => insertLang acc (langOrOther r.language) r.name) []

/-- The icon chosen for a fallback group. -/
def languageIcon (lang : String) : String :=
  if lang = "TypeScript" then "🔷"
  else if lang = "JavaScript" then "🟨"
  else if lang = "Python" then "🐍"
  else "📦"

/-- The response built by the catch branch of the grouping endpoint.  The
element types of the always-empty fields are abbreviated to `String`; the
claims only ever state that they are empty or absent. -/
structure GroupApiFallback where
  groups : List AIGroup
  featuredProjects : List String
  yearNarrative : Option String
  aiInsights : Option String
  achievements : List String
deriving DecidableEq

/-- The catch branch: one group per language bucket, empty narrative and
insight fields. -/
def fallbackResponse (repos : List GroupRepo) : GroupApiFallback :=
  { groups := (buildLanguageGroups repos).map (fun p =>
      { name := p.1 ++ " Projects"
        icon := languageIcon p.1
        description := "Projects built with " ++ p.1
        repos := p.2 })
    featuredProjects := []
    yearNarrative := none
    aiInsights := none
    achievements := [] }

/-- The bucket stored under key `k` (the first entry with that key). -/
def lookupBucket (acc : List (String × List String)) (k : String) : List String :=
  match acc.find? (fun p => p.1 == k) with
  | some p => p.2
  | none => []

theorem lookupBucket_nil (k : String) : lookupBucket [] k = [] := rfl

theorem lookupBucket_cons (k1 : String) (ns : List String)
    (rest : List (String × List String)) (k' : String) :
    lookupBucket ((k1, ns) :: rest) k' = if k1 = k' then ns else lookupBucket rest k' := by
  by_cases h : k1 = k'
  · subst h
    simp [lookupBucket, List.find?]
  · have hb : (k1 == k') = false := by simpa using h
    simp [lookupBucket, List.find?, hb, h]

theorem lookupBucket_insertLang (acc : List (String × List String)) (k n k' : String) :
    lookupBucket (insertLang acc k n) k'
      = if k' = k then lookupBucket acc k ++ [n] else lookupBucket acc k' := by
  induction acc with
  | nil =>
      by_cases h : k' = k
      · subst h
        simp [insertLang, lookupBucket_cons, lookupBucket_nil]
      · simp [insertLang, lookupBucket_cons, lookupBucket_nil, h, Ne.symm h]
  | cons p rest ih =>
      obtain ⟨k1, ns⟩ := p
      by_cases h1 : k1 = k
      · subst h1
        rw [show insertLang ((k1, ns) :: rest) k1 n = (k1, ns ++ [n]) :: rest from by
          simp [insertLang]]
        by_cases h2 : k' = k1
        · subst h2
          simp [lookupBucket_cons]
        · have h2x : ¬ k1 = k' := fun he => h2 he.symm
          simp [lookupBucket_cons, h2, h2x]
      · rw [show insertLang ((k1, ns) :: rest) k n = (k1, ns) :: insertLang rest k n from by
          simp [insertLang, h1]]
        by_cases h2 : k1 = k'
        · subst h2
          simp [lookupBucket_cons, h1]
        · simp [lookupBucket_cons, h1, h2, ih]

theorem insertLang_keys (acc : List (String × List String)) (k n : String) :
    (insertLang acc k n).map Prod.fst
      = if k ∈ acc.map Prod.fst then acc.map Prod.fst else acc.map Prod.fst ++ [k] := by
  induction acc with
  | nil => simp [insertLang]
  | cons p rest ih =>
      obtain ⟨k1, ns⟩ := p
      by_cases h1 : k1 = k
      · subst h1; simp [insertLang]
      · by_cases h2 : k ∈ List.map Prod.fst rest
        · simp [insertLang, h1, ih, h2, Ne.symm h1]
        · simp [insertLang, h1, ih, h2, Ne.symm h1]

theorem buildLang_invariant (repos : List GroupRepo) :
    ∀ (acc : List (String × List String)) (processed : List GroupRepo),
      (acc.map Prod.fst).Nodup →
      (∀ k, lookupBucket acc k
          = (processed.filter (fun r => langOrOther r.language == k)).map (fun r => r.name)) →
      (∀ k, k ∈ acc.map Prod.fst ↔ ∃ r ∈ processed, langOrOther r.language = k) →
      ((repos.foldl (fun acc r => insertLang acc (langOrOther r.language) r.name) acc).map
          Prod.fst).Nodup
      ∧ (∀ k, lookupBucket
            (repos.foldl (fun acc r => insertLang acc (langOrOther r.language) r.name) acc) k
          = ((processed ++ repos).filter (fun r => langOrOther r.language == k)).map
              (fun r => r.name))
      ∧ (∀ k, k ∈ (repos.foldl
              (fun acc r => insertLang acc (langOrOther r.language) r.name) acc).map Prod.fst
          ↔ ∃ r ∈ processed ++ repos, langOrOther r.language = k) := by
  induction repos with
  | nil =>
      intro acc processed h1 h2 h3
      refine ⟨h1, fun k => ?_, fun k => ?_⟩
      · rw [List.append_nil]
        exact h2 k
      · rw [List.append_nil]
        exact h3 k
  | cons r rest ih =>
      intro acc processed h1 h2 h3
      have s1 : ((insertLang acc (langOrOther r.language) r.name).map Prod.fst).Nodup := by
        rw [insertLang_keys]
        by_cases hk : langOrOther r.language ∈ acc.map Prod.fst
        · rw [if_pos hk]; exact h1
        · rw [if_neg hk]
          exact h1.append (List.nodup_singleton _) (List.disjoint_singleton.mpr hk)
      have s2 : ∀ k, lookupBucket (insertLang acc (langOrOther r.language) r.name) k
          = ((processed ++ [r]).filter (fun q => langOrOther q.language == k)).map
              (fun q => q.name) := by
        intro k
        rw [lookupBucket_insertLang]
        by_cases hk : k = langOrOther r.language
        · rw [if_pos hk, h2]
          simp [List.filter_append, hk]
        · rw [if_neg hk, h2]
          have : (langOrOther r.language == k) = false := by
            simp [Ne.symm hk]
          simp [List.filter_append, this]
      have s3 : ∀ k, k ∈ (insertLang acc (langOrOther r.language) r.name).map Prod.fst
          ↔ ∃ q ∈ processed ++ [r], langOrOther q.language = k := by
        intro k
        rw [insertLang_keys]
        by_cases hk : langOrOther r.language ∈ acc.map Prod.fst
        · rw [if_pos hk]
          rw [h3]
          constructor
          · rintro ⟨q, hq, hql⟩
            exact ⟨q, List.mem_append_left _ hq, hql⟩
          · rintro ⟨q, hq, hql⟩
            rcases List.mem_append.mp hq with hq | hq
            · exact ⟨q, hq, hql⟩
            · rcases List.mem_singleton.mp hq with rfl
              rw [← hql]
              exact (h3 _).mp hk
        · rw [if_neg hk]
          rw [List.mem_append, List.mem_singleton, h3]
          constructor
          · rintro (⟨q, hq, hql⟩ | rfl)
            · exact ⟨q, List.mem_append_left _ hq, hql⟩
            · exact ⟨r, List.mem_append_right _ (List.mem_singleton.mpr rfl), rfl⟩
          · rintro ⟨q, hq, hql⟩
            rcases List.mem_append.mp hq with hq | hq
            · exact Or.inl ⟨q, hq, hql⟩
            · rcases List.mem_singleton.mp hq with rfl
              exact Or.inr hql.symm
      have := ih (insertLang acc (langOrOther r.language) r.name) (processed ++ [r]) s1 s2 s3
      simpa [List.append_assoc] using this

theorem assoc_eq_keys_map (acc : List (String × List String))
    (h : (acc.map Prod.fst).Nodup) :
    acc = (acc.map Prod.fst).map (fun k => (k, lookupBucket acc k)) := by
  induction acc with
  | nil => rfl
  | cons p rest ih =>
      obtain ⟨k1, ns⟩ := p
      have h' : (k1 :: rest.map Prod.fst).Nodup := by
        rw [List.map_cons] at h
        exact h
      have hk : k1 ∉ rest.map Prod.fst := (List.nodup_cons.mp h').1
      have hrest : (rest.map Prod.fst).Nodup := (List.nodup_cons.mp h').2
      simp only [List.map_cons]
      have hhead : lookupBucket ((k1, ns) :: rest) k1 = ns := by
        rw [lookupBucket_cons, if_pos rfl]
      rw [hhead]
      congr 1
      have hstep : (rest.map Prod.fst).map (fun k => (k, lookupBucket ((k1, ns) :: rest) k))
          = (rest.map Prod.fst).map (fun k => (k, lookupBucket rest k)) := by
        apply List.map_congr_left
        intro k hkmem
        have hne : ¬ k1 = k := fun he => hk (he ▸ hkmem)
        rw [lookupBucket_cons, if_neg hne]
      rw [hstep]
      exact ih hrest

/-- C6: the fallback response partitions the submitted repositories by
effective primary language (repositories with no language, or an empty
language string, fall under "Other"): there is one group per distinct
language value, each group holds exactly the names of the repositories of
its language, and the featured-project, narrative, insight and achievement
fields are all empty or absent. -/
theorem fallbackResponse_partition (repos : List GroupRepo) :
    ((fallbackResponse repos).featuredProjects = []
      ∧ (fallbackResponse repos).yearNarrative = none
      ∧ (fallbackResponse repos).aiInsights = none
      ∧ (fallbackResponse repos).achievements = [])
    ∧ ∃ langs : List String, langs.Nodup
        ∧ (∀ k, k ∈ langs ↔ ∃ r ∈ repos, langOrOther r.language = k)
        ∧ (fallbackResponse repos).groups
            = langs.map (fun k =>
                { name := k ++ " Projects"
                  icon := languageIcon k
                  description := "Projects built with " ++ k
                  repos := (repos.filter (fun r => langOrOther r.language == k)).map
                      (fun r => r.name) }) := by
  obtain ⟨h1, h2, h3⟩ := buildLang_invariant repos [] []
    (by simp) (fun k => rfl) (by simp)
  have hb : buildLanguageGroups repos
      = repos.foldl (fun acc r => insertLang acc (langOrOther r.language) r.name) [] := rfl
  rw [← hb] at h1 h2 h3
  refine ⟨⟨rfl, rfl, rfl, rfl⟩, (buildLanguageGroups repos).map Prod.fst, h1, ?_, ?_⟩
  · intro k
    simpa using h3 k
  · show (buildLanguageGroups repos).map _ = _
    conv_lhs => rw [assoc_eq_keys_map (buildLanguageGroups repos) h1]
    rw [List.map_map]
    apply List.map_congr_left
    intro k hkmem
    have hlook := h2 k
    simp only [List.nil_append] at hlook
    simp [Function.comp, hlook]

/-! ## Contributor-stats retry loop (src/app/api/github/stats/route.ts lines 10-72) -/

/-- One week row of a contributor (`week.a`, `week.d`). -/
structure StatsWeek where
  a : Nat
  d : Nat
deriving DecidableEq

/-- One contributor row of the upstream response. -/
structure StatsContributor where
  weeks : List StatsWeek
deriving DecidableEq

/-- One upstream answer: HTTP 202 ("still computing") or a 200 with rows. -/
inductive StatsResponse where
  | computing
  | data (rows : List StatsContributor)
deriving DecidableEq

/-- The `totalAdditions` double loop over contributors and weeks. -/
def totalAdditions (rows : List StatsContributor) : Nat :=
  (rows.map (fun c => (c.weeks.map (fun w => w.a)).sum)).sum

/-- The `totalDeletions` double loop over contributors and weeks. -/
def totalDeletions (rows : List StatsContributor) : Nat :=
  (rows.map (fun c => (c.weeks.map (fun w => w.d)).sum)).sum

/-- `response.data.some(c => c.weeks && c.weeks.length > 0)`. -/
def hasAnyWeeks (rows : List StatsContributor) : Bool :=
  rows.any (fun c => decide (0 < c.weeks.length))

/-- The retry loop of `fetchContributorStatsWithRetry`.  The upstream call
is a double `oracle : attempt ↦ thrown error or response`; `remaining`
counts the loop iterations left (`maxRetries - attempt`), so the JavaScript
guard `attempt < maxRetries - 1` is `0 < remaining - 1`, i.e. `0 < rem` for
`remaining = rem + 1`.  The result carries the returned totals and the
number of calls made to the oracle, so that the retry budget is
observable. -/
def fetchGo (oracle : Nat → Except Unit StatsResponse) :
    Nat → Nat → Nat → (Nat × Nat) × Nat
  | 0, _, calls => ((0, 0), calls)
  | rem + 1, attempt, calls =>
      match oracle attempt with
      | Except.error _ =>
          if 0 < rem then fetchGo oracle rem (attempt + 1) (calls + 1)
          else ((0, 0), calls + 1)
      | Except.ok StatsResponse.computing =>
          if 0 < rem then fetchGo oracle rem (attempt + 1) (calls + 1)
          else ((0, 0), calls + 1)
      | Except.ok (StatsResponse.data rows) =>
          if 0 < rows.length then
            if totalAdditions rows = 0 ∧ totalDeletions rows = 0 ∧ 0 < rem
                ∧ hasAnyWeeks rows = false then
              fetchGo oracle rem (attempt + 1) (calls + 1)
            else ((totalAdditions rows, totalDeletions rows), calls + 1)
          else
            if 0 < rem then fetchGo oracle rem (attempt + 1) (calls + 1)
            else ((totalAdditions rows, totalDeletions rows), calls + 1)

/-- `fetchContributorStatsWithRetry` with its retry budget (`maxRetries`,
5 at every call site); the `delayMs` sleep has no observable effect in the
embedding. -/
def fetchContributorStatsWithRetry (oracle : Nat → Except Unit StatsResponse)
    (maxRetries : Nat) : (Nat × Nat) × Nat :=
  fetchGo oracle maxRetries 0 0

/-- C8: against a double that reports "still computing" on every call, the
retry helper terminates and returns zero additions and deletions after
exactly the retry budget of 5 calls. -/
theorem fetchRetry_always_computing :
    fetchContributorStatsWithRetry (fun _ => Except.ok StatsResponse.computing) 5
      = ((0, 0), 5) := rfl

/-- The oracle of the C7 counterexample: a computed (200) answer whose one
contributor has one week row with zero additions and deletions. -/
def zeroWeekOracle : Nat → Except Unit StatsResponse :=
  fun _ => Except.ok (StatsResponse.data [{ weeks := [{ a := 0, d := 0 }] }])

/-- C7 counterexample: on a computed response whose contributor has week
rows summing to zero, the helper returns the zero totals after a single
call — it does not retry although four retries remain in the budget. -/
theorem fetchRetry_zero_weeks_counterexample :
    fetchContributorStatsWithRetry zeroWeekOracle 5 = ((0, 0), 1) := rfl

/-- One unfolding of the retry loop. -/
theorem fetchGo_succ (oracle : Nat → Except Unit StatsResponse)
    (rem attempt calls : Nat) :
    fetchGo oracle (rem + 1) attempt calls
      = match oracle attempt with
        | Except.error _ =>
            if 0 < rem then fetchGo oracle rem (attempt + 1) (calls + 1)
            else ((0, 0), calls + 1)
        | Except.ok StatsResponse.computing =>
            if 0 < rem then fetchGo oracle rem (attempt + 1) (calls + 1)
            else ((0, 0), calls + 1)
        | Except.ok (StatsResponse.data rows) =>
            if 0 < rows.length then
              if totalAdditions rows = 0 ∧ totalDeletions rows = 0 ∧ 0 < rem
                  ∧ hasAnyWeeks rows = false then
                fetchGo oracle rem (attempt + 1) (calls + 1)
              else ((totalAdditions rows, totalDeletions rows), calls + 1)
            else
              if 0 < rem then fetchGo oracle rem (attempt + 1) (calls + 1)
              else ((totalAdditions rows, totalDeletions rows), calls + 1) := rfl

theorem fetchGo_calls_lb (oracle : Nat → Except Unit StatsResponse) :
    ∀ remaining attempt calls, 0 < remaining →
      calls + 1 ≤ (fetchGo oracle remaining attempt calls).2 := by
  intro remaining
  induction remaining with
  | zero => intro attempt calls h; exact absurd h (by omega)
  | succ rem ih =>
      intro attempt calls _
      rw [fetchGo_succ]
      cases horacle : oracle attempt with
      | error e =>
          dsimp only
          by_cases hrem : 0 < rem
          · have := ih (attempt + 1) (calls + 1) hrem
            rw [if_pos hrem]
            omega
          · rw [if_neg hrem]
      | ok resp =>
          cases resp with
          | computing =>
              dsimp only
              by_cases hrem : 0 < rem
              · have := ih (attempt + 1) (calls + 1) hrem
                rw [if_pos hrem]
                omega
              · rw [if_neg hrem]
          | data rows =>
              dsimp only
              by_cases hlen : 0 < rows.length
              · by_cases hzero : totalAdditions rows = 0 ∧ totalDeletions rows = 0
                    ∧ 0 < rem ∧ hasAnyWeeks rows = false
                · have := ih (attempt + 1) (calls + 1) hzero.2.2.1
                  rw [if_pos hlen, if_pos hzero]
                  omega
                · rw [if_pos hlen, if_neg hzero]
              · by_cases hrem : 0 < rem
                · have := ih (attempt + 1) (calls + 1) hrem
                  rw [if_neg hlen, if_pos hrem]
                  omega
                · rw [if_neg hlen, if_neg hrem]

/-- When no contributor has any week rows, the two double loops sum over
nothing, so both totals are zero. -/
theorem totals_zero_of_no_weeks (rows : List StatsContributor)
    (h : hasAnyWeeks rows = false) :
    totalAdditions rows = 0 ∧ totalDeletions rows = 0 := by
  have hall : ∀ c ∈ rows, c.weeks = [] := by
    intro c hc
    have hlen : ¬ 0 < c.weeks.length := by
      simpa using List.any_eq_false.mp h c hc
    exact List.length_eq_zero.mp (by omega)
  constructor
  · refine List.sum_eq_zero ?_
    intro x hx
    obtain ⟨c, hc, rfl⟩ := List.mem_map.mp hx
    rw [hall c hc]
    rfl
  · refine List.sum_eq_zero ?_
    intro x hx
    obtain ⟨c, hc, rfl⟩ := List.mem_map.mp hx
    rw [hall c hc]
    rfl

/-- C7 (amended): a computed (200) response with at least one week row is
accepted on the spot — even when its totals are zero — after a single call;
a computed response with no data rows at all, or with contributor rows none
of which has any week rows (the totals are then necessarily zero), is
treated as still-computing and retried while budget remains. -/
theorem fetchRetry_zero_handling (oracle : Nat → Except Unit StatsResponse)
    (rows : List StatsContributor)
    (h0 : oracle 0 = Except.ok (StatsResponse.data rows)) :
    (0 < rows.length → hasAnyWeeks rows = true →
      fetchContributorStatsWithRetry oracle 5
        = ((totalAdditions rows, totalDeletions rows), 1))
    ∧ (rows = [] → 2 ≤ (fetchContributorStatsWithRetry oracle 5).2)
    ∧ (0 < rows.length → hasAnyWeeks rows = false →
        2 ≤ (fetchContributorStatsWithRetry oracle 5).2) := by
  refine ⟨?_, ?_, ?_⟩
  · intro hlen hweeks
    show fetchGo oracle (4 + 1) 0 0 = _
    rw [fetchGo_succ, h0]
    dsimp only
    rw [if_pos hlen, if_neg (by simp [hweeks])]
  · intro hrows
    subst hrows
    show 2 ≤ (fetchGo oracle (4 + 1) 0 0).2
    rw [fetchGo_succ, h0]
    dsimp only
    rw [if_neg (by simp), if_pos (by omega)]
    exact fetchGo_calls_lb oracle 4 1 1 (by omega)
  · intro hlen hweeks
    obtain ⟨hadd, hdel⟩ := totals_zero_of_no_weeks rows hweeks
    show 2 ≤ (fetchGo oracle (4 + 1) 0 0).2
    rw [fetchGo_succ, h0]
    dsimp only
    rw [if_pos hlen, if_pos ⟨hadd, hdel, by omega, hweeks⟩]
    exact fetchGo_calls_lb oracle 4 1 1 (by omega)

/-- An oracle of the C7 witness: a computed answer with no rows at all. -/
def emptyRowsOracle : Nat → Except Unit StatsResponse :=
  fun _ => Except.ok (StatsResponse.data [])

/-- An oracle of the C7 witness: a computed answer with one contributor row
that has no week rows. -/
def noWeeksOracle : Nat → Except Unit StatsResponse :=
  fun _ => Except.ok (StatsResponse.data [{ weeks := [] }])

/-- C7 witness: with a first answer carrying no data rows, and likewise
with a first answer whose one contributor has no week rows, the helper
makes a second call (it retries). -/
theorem fetchRetry_zero_handling_witness :
    2 ≤ (fetchContributorStatsWithRetry emptyRowsOracle 5).2
    ∧ 2 ≤ (fetchContributorStatsWithRetry noWeeksOracle 5).2 :=
  ⟨(fetchRetry_zero_handling emptyRowsOracle [] rfl).2.1 rfl,
   (fetchRetry_zero_handling noWeeksOracle [{ weeks := [] }] rfl).2.2
     (by decide) rfl⟩

/-! ## Batched analysis aggregation (src/app/dashboard/page.tsx lines 359-527) -/

/-- The per-repository statistics summed by `analyzeRepositories`
(`net = additions - deletions` can be negative). -/
structure RepoStats where
  commits : Int
  additions : Int
  deletions : Int
  net : Int
deriving DecidableEq

/-- A selected repository, reduced to the identity the aggregation uses. -/
structure DashRepo where
  name : String
deriving DecidableEq

/-- The outcome of the per-repository work (`analyzeRepo`): stats on
success, a thrown error message on failure. -/
abbrev RepoOutcome := Except String RepoStats

/-- One entry of `analyzedResults`. -/
structure AnalyzedResult where
  name : String
  stats : RepoStats
deriving DecidableEq

/-- The `totalStats` accumulator of `analyzeRepositories`. -/
structure TotalStats where
  totalCommits : Int
  totalAdditions : Int
  totalDeletions : Int
  totalNet : Int
deriving DecidableEq

/-- `selectedRepos.slice(i, i + BATCH_SIZE)` for `i = 0, 8, 16, ...` with
`BATCH_SIZE = 8`; the fuel argument (initially the list length, which
bounds the iteration count) makes the recursion structural. -/
def toBatchesFuel : Nat → List (DashRepo × RepoOutcome) → List (List (DashRepo × RepoOutcome))
  | 0, _ => []
  | _ + 1, [] => []
  | fuel + 1, x :: l => ((x :: l).take 8) :: toBatchesFuel fuel ((x :: l).drop 8)

/-- The batch decomposition of the selected repositories. -/
def toBatches (l : List (DashRepo × RepoOutcome)) : List (List (DashRepo × RepoOutcome)) :=
  toBatchesFuel l.length l

/-- One batch: each member resolves independently; a failure yields `null`
(and an error marker on the repository card). -/
def processBatch (batch : List (DashRepo × RepoOutcome)) : List (Option AnalyzedResult) :=
  batch.map (fun p =>
    match p.2 with
    | Except.ok stats => some { name := p.1.name, stats := stats }
    | Except.error _ => none)

/-- `analyzedResults` after all batches have settled: the non-null batch
results pushed in order. -/
def runBatches (selected : List (DashRepo × RepoOutcome)) : List AnalyzedResult :=
  (toBatches selected).foldl (fun acc batch => acc ++ (processBatch batch).filterMap id) []

/-- The repositories that succeeded, in order. -/
def successResults (selected : List (DashRepo × RepoOutcome)) : List AnalyzedResult :=
  selected.filterMap (fun p =>
    match p.2 with
    | Except.ok stats => some { name := p.1.name, stats := stats }
    | Except.error _ => none)

/-- The `totalStats` reduce over `analyzedResults`. -/
def computeTotalStats (results : List AnalyzedResult) : TotalStats :=
  results.foldl
    (fun acc r =>
      { totalCommits := acc.totalCommits + r.stats.commits
        totalAdditions := acc.totalAdditions + r.stats.additions
        totalDeletions := acc.totalDeletions + r.stats.deletions
        totalNet := acc.totalNet + r.stats.net })
    { totalCommits := 0, totalAdditions := 0, totalDeletions := 0, totalNet := 0 }

/-- The error markers attached by the batch catch-handler. -/
def errorMarkers (selected : List (DashRepo × RepoOutcome)) : List (String × String) :=
  selected.filterMap (fun p =>
    match p.2 with
    | Except.ok _ => none
    | Except.error e => some (p.1.name, e))

theorem toBatchesFuel_flatten :
    ∀ (fuel : Nat) (l : List (DashRepo × RepoOutcome)), l.length ≤ fuel →
      (toBatchesFuel fuel l).flatten = l := by
  intro fuel
  induction fuel with
  | zero =>
      intro l hl
      have : l = [] := by
        cases l with
        | nil => rfl
        | cons x t => simp at hl
      subst this
      rfl
  | succ n ih =>
      intro l hl
      cases l with
      | nil => rfl
      | cons x t =>
          show ((x :: t).take 8 :: toBatchesFuel n ((x :: t).drop 8)).flatten = x :: t
          rw [List.flatten_cons]
          rw [ih ((x :: t).drop 8) (by
            simp only [List.length_drop, List.length_cons] at hl ⊢
            omega)]
          exact List.take_append_drop 8 (x :: t)

theorem toBatches_flatten (l : List (DashRepo × RepoOutcome)) :
    (toBatches l).flatten = l :=
  toBatchesFuel_flatten l.length l (Nat.le_refl _)

theorem runBatches_go (batches : List (List (DashRepo × RepoOutcome)))
    (acc : List AnalyzedResult) :
    batches.foldl (fun acc batch => acc ++ (processBatch batch).filterMap id) acc
      = acc ++ successResults batches.flatten := by
  induction batches generalizing acc with
  | nil => simp [successResults]
  | cons b bs ih =>
      rw [List.foldl_cons, ih, List.flatten_cons]
      have hb : (processBatch b).filterMap id = successResults b := by
        rw [processBatch, List.filterMap_map]
        rfl
      rw [hb]
      rw [show successResults (b ++ bs.flatten)
          = successResults b ++ successResults bs.flatten from List.filterMap_append _ _ _]
      rw [List.append_assoc]

theorem runBatches_eq (selected : List (DashRepo × RepoOutcome)) :
    runBatches selected = successResults selected := by
  rw [runBatches, runBatches_go, toBatches_flatten, List.nil_append]

theorem computeTotalStats_go (results : List AnalyzedResult) (acc : TotalStats) :
    results.foldl
        (fun acc r =>
          { totalCommits := acc.totalCommits + r.stats.commits
            totalAdditions := acc.totalAdditions + r.stats.additions
            totalDeletions := acc.totalDeletions + r.stats.deletions
            totalNet := acc.totalNet + r.stats.net })
        acc
      = { totalCommits := acc.totalCommits + (results.map (fun r => r.stats.commits)).sum
          totalAdditions := acc.totalAdditions + (results.map (fun r => r.stats.additions)).sum
          totalDeletions := acc.totalDeletions + (results.map (fun r => r.stats.deletions)).sum
          totalNet := acc.totalNet + (results.map (fun r => r.stats.net)).sum } := by
  induction results generalizing acc with
  | nil => simp
  | cons r rest ih =>
      rw [List.foldl_cons, ih]
      simp [Int.add_assoc]

/-- C9: over any mix of per-repository successes and failures, the
aggregate totals passed to the grouping call are exactly the sums of the
per-repository stats over the repositories that succeeded, in order; a
failed repository contributes nothing to `analyzedResults` and carries an
error marker with its failure message. -/
theorem runAnalysis_totals (selected : List (DashRepo × RepoOutcome)) :
    runBatches selected = successResults selected
    ∧ computeTotalStats (runBatches selected)
        = { totalCommits := ((successResults selected).map (fun r => r.stats.commits)).sum
            totalAdditions := ((successResults selected).map (fun r => r.stats.additions)).sum
            totalDeletions := ((successResults selected).map (fun r => r.stats.deletions)).sum
            totalNet := ((successResults selected).map (fun r => r.stats.net)).sum }
    ∧ (∀ p ∈ selected, ∀ e, p.2 = Except.error e → (p.1.name, e) ∈ errorMarkers selected)
    ∧ (∀ p ∈ selected, ∀ st, p.2 = Except.ok st →
        ({ name := p.1.name, stats := st } : AnalyzedResult) ∈ runBatches selected) := by
  refine ⟨runBatches_eq selected, ?_, ?_, ?_⟩
  · rw [runBatches_eq, computeTotalStats, computeTotalStats_go]
    simp
  · intro p hp e he
    rw [errorMarkers]
    exact List.mem_filterMap.mpr ⟨p, hp, by rw [he]⟩
  · intro p hp st hst
    rw [runBatches_eq, successResults]
    exact List.mem_filterMap.mpr ⟨p, hp, by rw [hst]⟩

/-- The two-repository run of the C9 witness: "A" succeeds, "B" fails at
the stats-fetch stage. -/
def c9Selected : List (DashRepo × RepoOutcome) :=
  [(⟨"A"⟩, Except.ok { commits := 10, additions := 100, deletions := 40, net := 60 }),
   (⟨"B"⟩, Except.error "stats fetch failed")]

/-- C9 witness: on the concrete two-repository run, the totals equal A's
own stats exactly and B carries its error marker. -/
theorem runAnalysis_totals_witness :
    computeTotalStats (runBatches c9Selected)
        = { totalCommits := 10, totalAdditions := 100, totalDeletions := 40, totalNet := 60 }
    ∧ ("B", "stats fetch failed") ∈ errorMarkers c9Selected := by
  constructor
  · rw [(runAnalysis_totals c9Selected).2.1]
    rfl
  · exact (runAnalysis_totals c9Selected).2.2.1
      (⟨"B"⟩, Except.error "stats fetch failed") (by simp [c9Selected])
      "stats fetch failed" rfl

end GithubWrapped
